import Mathlib

/-
  Verification development for the LLPE speculative, context-sensitive
  interprocedural analyzer (HypotheticalConstantFolder.cpp, IAWalkers.cpp,
  LoopPeelHeuristics.cpp).  The definitions below are shallow embeddings of
  the C++ functions named in their doc comments; the theorems check the
  documented properties of the analyzer against those embeddings.
-/

/- ===================================================================
   Open-call comparison folding (IntegrationAttempt::tryFoldOpenCmp and
   the dispatch in IntegrationAttempt::tryEvaluateResult).
   =================================================================== -/

/-- The integer comparison predicates of CmpInst that matter to
tryFoldOpenCmp, plus the unsigned ones (which it refuses to fold). -/
inductive CmpPred where
  | icmpEq | icmpNe
  | icmpSgt | icmpSge | icmpSlt | icmpSle
  | icmpUgt | icmpUge | icmpUlt | icmpUle
  deriving DecidableEq

/-- The predicate mirroring performed at the top of tryFoldOpenCmp when
`flip` is set (the symbolic handle was the right operand): SGT and SLT are
exchanged, SGE and SLE are exchanged, every other predicate is unchanged. -/
def flipOpenCmpPred : CmpPred → CmpPred
  | .icmpSgt => .icmpSlt
  | .icmpSge => .icmpSle
  | .icmpSlt => .icmpSgt
  | .icmpSle => .icmpSge
  | p => p

/-- A ConstantInt: a bit width and the raw bits, bounded by the width. -/
structure ConstantInt where
  width : Nat
  bits : Nat
  isLt : bits < 2 ^ width

/-- APInt::getSExtValue: reinterpret the raw bits as a signed two's
complement number of the given width. -/
def getSExtValue (c : ConstantInt) : Int :=
  if c.bits < 2 ^ (c.width - 1) then (c.bits : Int)
  else (c.bits : Int) - 2 ^ c.width

/-- IntegrationAttempt::tryFoldOpenCmp: fold a comparison between a value
known to be a symbolic file handle and the constant `CmpInt`, using the
invariant that a valid handle is non-negative.  Returns the folded boolean
constant, or none when no fold applies.  `flip` is set by tryEvaluateResult
when the handle was the right operand of the comparison. -/
def tryFoldOpenCmp (CmpI : CmpPred) (CmpInt : ConstantInt) (flip : Bool) : Option Bool :=
  if CmpInt.width > 64 then none
  else
    let Pred := if flip then flipOpenCmpPred CmpI else CmpI
    let CmpVal : Int := getSExtValue CmpInt
    match Pred with
    | .icmpEq => if CmpVal < 0 then some false else none
    | .icmpNe => if CmpVal < 0 then some true else none
    | .icmpSgt => if CmpVal < 0 then some true else none
    | .icmpSge => if CmpVal ≤ 0 then some true else none
    | .icmpSlt => if CmpVal ≤ 0 then some false else none
    | .icmpSle => if CmpVal < 0 then some false else none
    | _ => none

/-- Mathematical meaning of the signed comparison predicates over ℤ (none
for the predicates whose folding the analyzer does not support). -/
def semCmp : CmpPred → Int → Int → Option Bool
  | .icmpEq, a, b => some (decide (a = b))
  | .icmpNe, a, b => some (decide (a ≠ b))
  | .icmpSgt, a, b => some (decide (b < a))
  | .icmpSge, a, b => some (decide (b ≤ a))
  | .icmpSlt, a, b => some (decide (a < b))
  | .icmpSle, a, b => some (decide (a ≤ b))
  | _, _, _ => none

/-- The fold table exactly as claim C9 words it, keyed by the predicate
with the handle on the left (already mirrored when the handle was the
right operand) and the signed value of the constant: handle == c folds to
false and handle != c to true when c < 0, handle > c to true when c < 0,
handle >= c to true when c <= 0, handle < c to false when c <= 0,
handle <= c to false when c < 0; other predicates never fold. -/
def claimedOpenCmpFold (p : CmpPred) (c : Int) : Option Bool :=
  match p with
  | .icmpEq => if c < 0 then some false else none
  | .icmpNe => if c < 0 then some true else none
  | .icmpSgt => if c < 0 then some true else none
  | .icmpSge => if c ≤ 0 then some true else none
  | .icmpSlt => if c ≤ 0 then some false else none
  | .icmpSle => if c < 0 then some false else none
  | _ => none

/-- C9.  Symbolic-handle comparison folding: for constants of width at most
64 bits the fold is exactly the table the claim states (with the predicate
mirrored when the handle is the right operand), wider constants are never
folded, and every fold is sound for every non-negative handle value: when
the fold returns a boolean, the mathematical signed comparison between the
handle and the sign-extended constant (in operand order) has that value. -/
theorem tryFoldOpenCmp_claim (p : CmpPred) (c : ConstantInt) (flip : Bool) :
    (c.width ≤ 64 →
      tryFoldOpenCmp p c flip =
        claimedOpenCmpFold (if flip then flipOpenCmpPred p else p) (getSExtValue c))
    ∧ (64 < c.width → tryFoldOpenCmp p c flip = none)
    ∧ (∀ b : Bool, tryFoldOpenCmp p c flip = some b →
        ∀ h : Int, 0 ≤ h →
          semCmp p (if flip then getSExtValue c else h)
            (if flip then h else getSExtValue c) = some b) := by
  refine ⟨?_, ?_, ?_⟩
  · intro hw
    have hnot : ¬ (c.width > 64) := by omega
    cases flip <;> cases p <;>
      simp [tryFoldOpenCmp, claimedOpenCmpFold, flipOpenCmpPred, hnot]
  · intro hw
    have h : c.width > 64 := hw
    simp [tryFoldOpenCmp, h]
  · intro b hb h hh
    by_cases hw : c.width > 64
    · simp [tryFoldOpenCmp, hw] at hb
    · cases flip <;> cases p <;>
        simp [tryFoldOpenCmp, hw, flipOpenCmpPred] at hb <;>
        obtain ⟨hc, hbv⟩ := hb <;>
        subst hbv <;>
        simp [semCmp] <;>
        omega

/-- Witness for C9: the theorem applied to the 8-bit constant 255 (signed
value −1) compared for equality with the handle on the left. -/
theorem tryFoldOpenCmp_claim_witness :
    tryFoldOpenCmp .icmpEq ⟨8, 255, by norm_num⟩ false =
      claimedOpenCmpFold .icmpEq (getSExtValue ⟨8, 255, by norm_num⟩) :=
  (tryFoldOpenCmp_claim .icmpEq ⟨8, 255, by norm_num⟩ false).1 (by norm_num)

/- ===================================================================
   Dead-value elimination eligibility (IntegrationAttempt::shouldDIE).
   =================================================================== -/

/-- The instruction opcodes distinguished by shouldDIE's switch, plus a
representative sample of the "ordinary" opcodes that fall to its default
case. -/
inductive LLVMOpcode where
  | ret | br | switch | indirectBr | invoke | unwind | unreachable
  | vaArg | alloca | store
  | call | phi | select | icmp
  | add | sub | mul | load | getElementPtr | bitcast
  deriving DecidableEq

/-- A candidate value for dead-instruction elimination: an Argument, a
non-instruction value (block, function, constant), or an instruction with
its opcode. -/
inductive DIEValue where
  | argument
  | notInstruction
  | instruction (op : LLVMOpcode)
  deriving DecidableEq

/-- IntegrationAttempt::shouldDIE: arguments are always candidates;
non-instructions never are; a call is a candidate exactly when it has an
inline attempt (`hasInlineAttempt` abstracts getInlineAttempt(CI) != 0);
otherwise the opcode switch excludes VAArg, Alloca, Invoke, Store, Br,
IndirectBr, Switch, Unwind and Unreachable, and every other opcode is a
candidate. -/
def shouldDIE (hasInlineAttempt : Bool) (V : DIEValue) : Bool :=
  match V with
  | .argument => true
  | .notInstruction => false
  | .instruction .call => hasInlineAttempt
  | .instruction op =>
    match op with
    | .vaArg | .alloca | .invoke | .store | .br
    | .indirectBr | .switch | .unwind | .unreachable => false
    | _ => true

/-- Elimination eligibility exactly as claim C10 words it: a function
argument, a call with an existing inline attempt, a PHI node, or an
ordinary pure instruction is a candidate; branch, switch, return,
unreachable, indirect-branch, alloca, store, vararg and invoke
instructions never are. -/
def claimedDIECandidate (hasInlineAttempt : Bool) (V : DIEValue) : Bool :=
  match V with
  | .argument => true
  | .notInstruction => false
  | .instruction .call => hasInlineAttempt
  | .instruction .phi => true
  | .instruction op =>
    match op with
    | .br | .switch | .ret | .unreachable | .indirectBr
    | .alloca | .store | .vaArg | .invoke => false
    | _ => true

/-- Counterexample to C10 as stated: the claim makes a return instruction
never a candidate for direct elimination, but shouldDIE accepts Ret (its
opcode switch does not exclude it; dead returns are how an unused call's
return value is propagated). -/
theorem shouldDIE_ret_counterexample :
    shouldDIE false (.instruction .ret) = true ∧
    claimedDIECandidate false (.instruction .ret) = false := by
  exact ⟨rfl, rfl⟩

/-- Eligibility as amended by the counterexample: identical to the claim's
classification except that return instructions are candidates and unwind
instructions are not. -/
def amendedDIECandidate (hasInlineAttempt : Bool) (V : DIEValue) : Bool :=
  match V with
  | .argument => true
  | .notInstruction => false
  | .instruction .call => hasInlineAttempt
  | .instruction .phi => true
  | .instruction .ret => true
  | .instruction op =>
    match op with
    | .br | .switch | .unreachable | .indirectBr
    | .alloca | .store | .vaArg | .invoke | .unwind => false
    | _ => true

/-- C10 (amended).  shouldDIE classifies values exactly as the amended
claim: arguments, calls with an inline attempt, PHI nodes, return
instructions and ordinary pure instructions are candidates; branch,
switch, unreachable, indirect-branch, alloca, store, vararg, invoke and
unwind instructions, and non-instruction values, never are. -/
theorem shouldDIE_amended :
    ∀ (hasInlineAttempt : Bool) (V : DIEValue),
      shouldDIE hasInlineAttempt V = amendedDIECandidate hasInlineAttempt V := by
  intro ia V
  cases ia <;> cases V with
  | argument => rfl
  | notInstruction => rfl
  | instruction op => cases op <;> rfl

/- ===================================================================
   CFG liveness propagation (IntegrationAttempt::checkBlock,
   shouldCheckBlock, and the side tables they maintain).
   Blocks, values and contexts are identified by stable numbers.
   =================================================================== -/

/-- The control-flow data checkBlock consults: the entry block, the
predecessor and successor lists of every block, and the parent block of
every instruction. -/
structure CFG where
  entry : Nat
  preds : Nat → List Nat
  succs : Nat → List Nat
  instBlock : Nat → Nat

/-- The per-context side tables of an IntegrationAttempt: dead edges, dead
blocks, certain blocks, and the improvement map from a value to its
replacement ValCtx (value, context). -/
structure IAState where
  deadEdges : List (Nat × Nat)
  deadBlocks : List Nat
  certainBlocks : List Nat
  improvedValues : List (Nat × (Nat × Nat))
  deriving DecidableEq

/-- IntegrationAttempt::edgeIsDead. -/
def edgeIsDead (s : IAState) (a b : Nat) : Bool :=
  decide ((a, b) ∈ s.deadEdges)

/-- IntegrationAttempt::blockIsDead. -/
def blockIsDead (s : IAState) (b : Nat) : Bool :=
  decide (b ∈ s.deadBlocks)

/-- IntegrationAttempt::blockIsCertain. -/
def blockIsCertain (s : IAState) (b : Nat) : Bool :=
  decide (b ∈ s.certainBlocks)

/-- IntegrationAttempt::shouldCheckBlock: only blocks not yet classified
dead or certain are (re)checked. -/
def shouldCheckBlock (s : IAState) (b : Nat) : Bool :=
  !(blockIsDead s b || blockIsCertain s b)

/-- One step of checkBlock's predecessor loop: a live incoming edge clears
isDead; certainty survives only when the live predecessor is certain and
has this block as its only live successor. -/
def checkBlockPredStep (cfg : CFG) (s : IAState) (BB : Nat)
    (acc : Bool × Bool) (PI : Nat) : Bool × Bool :=
  if !(edgeIsDead s PI BB) then
    let isCertain :=
      if blockIsCertain s PI then
        let onlySuccessor := (cfg.succs PI).all fun SI => SI == BB || edgeIsDead s PI SI
        if !onlySuccessor then false else acc.2
      else false
    (false, isCertain)
  else acc

/-- The (isDead, isCertain) pair computed by checkBlock before the
adjustment that keeps a dead block from being certain: the entry block is
live and certain, any other block folds checkBlockPredStep over its
predecessors starting from (true, true). -/
def checkBlockFlags (cfg : CFG) (s : IAState) (BB : Nat) : Bool × Bool :=
  if BB = cfg.entry then (false, true)
  else (cfg.preds BB).foldl (checkBlockPredStep cfg s BB) (true, true)

/-- IntegrationAttempt::checkBlock: classify BB (if not already known),
record the classification, and for a dead block discard the improvements
of its instructions and kill all outgoing edges.  Work-queueing side
effects (queueTryEvaluate on PHIs, queueCFGBlockedLoads/Opens, inline
attempt creation) touch none of the four side tables and are omitted. -/
def checkBlock (cfg : CFG) (s : IAState) (BB : Nat) : IAState :=
  if !shouldCheckBlock s BB then s
  else
    let flags := checkBlockFlags cfg s BB
    let isDead := flags.1
    let isCertain := if isDead && flags.2 then false else flags.2
    let s1 :=
      if isDead then
        { s with deadBlocks := BB :: s.deadBlocks,
                 improvedValues :=
                   s.improvedValues.filter fun p => !(cfg.instBlock p.1 == BB) }
      else s
    let s2 := if isCertain then { s1 with certainBlocks := BB :: s1.certainBlocks } else s1
    if isDead then
      { s2 with deadEdges := ((cfg.succs BB).map fun SI => (BB, SI)) ++ s2.deadEdges }
    else s2

theorem checkBlockPredStep_foldl_fst (cfg : CFG) (s : IAState) (BB : Nat) :
    ∀ (l : List Nat) (acc : Bool × Bool),
      (l.foldl (checkBlockPredStep cfg s BB) acc).1 =
        (acc.1 && l.all fun P => edgeIsDead s P BB) := by
  intro l
  induction l with
  | nil => intro acc; simp
  | cons P rest ih =>
    intro acc
    by_cases hP : edgeIsDead s P BB = true
    · simp only [List.foldl_cons, List.all_cons, hP, Bool.true_and,
        checkBlockPredStep, Bool.not_true]
      rw [if_neg (by simp)]
      exact ih acc
    · have hP' : edgeIsDead s P BB = false := by
        cases h : edgeIsDead s P BB
        · rfl
        · exact absurd h hP
      simp only [List.foldl_cons, List.all_cons, hP', Bool.false_and,
        Bool.and_false, checkBlockPredStep, Bool.not_false, if_pos]
      rw [ih]
      simp

/-- The dead flag of a non-entry block is exactly "every incoming edge is
dead". -/
theorem checkBlockFlags_fst (cfg : CFG) (s : IAState) (BB : Nat)
    (h : BB ≠ cfg.entry) :
    (checkBlockFlags cfg s BB).1 = (cfg.preds BB).all fun P => edgeIsDead s P BB := by
  unfold checkBlockFlags
  rw [if_neg h, checkBlockPredStep_foldl_fst]
  simp

/-- When a block is actually (re)classified, checkBlock's effect on the
four side tables, spelled out. -/
theorem checkBlock_result (cfg : CFG) (s : IAState) (BB : Nat)
    (hchk : shouldCheckBlock s BB = true) :
    checkBlock cfg s BB =
      { deadEdges :=
          if (checkBlockFlags cfg s BB).1 then
            ((cfg.succs BB).map fun SI => (BB, SI)) ++ s.deadEdges
          else s.deadEdges,
        deadBlocks :=
          if (checkBlockFlags cfg s BB).1 then BB :: s.deadBlocks else s.deadBlocks,
        certainBlocks :=
          if !(checkBlockFlags cfg s BB).1 && (checkBlockFlags cfg s BB).2 then
            BB :: s.certainBlocks
          else s.certainBlocks,
        improvedValues :=
          if (checkBlockFlags cfg s BB).1 then
            s.improvedValues.filter fun p => !(cfg.instBlock p.1 == BB)
          else s.improvedValues } := by
  unfold checkBlock
  rw [hchk]
  cases hfd : (checkBlockFlags cfg s BB).1 <;>
    cases hfc : (checkBlockFlags cfg s BB).2 <;>
    simp [hfd, hfc]

/-- A block already classified dead or certain is left untouched. -/
theorem checkBlock_skip (cfg : CFG) (s : IAState) (BB : Nat)
    (h : shouldCheckBlock s BB = false) :
    checkBlock cfg s BB = s := by
  unfold checkBlock
  rw [h]
  simp

theorem shouldCheckBlock_spec (s : IAState) (BB : Nat)
    (h : shouldCheckBlock s BB = true) :
    BB ∉ s.deadBlocks ∧ BB ∉ s.certainBlocks := by
  simp only [shouldCheckBlock, Bool.not_eq_true', Bool.or_eq_false_iff,
    blockIsDead, blockIsCertain, decide_eq_false_iff_not] at h
  exact h

/-- C1.  Liveness consistency of checkBlock: for a block BB being
classified, (i) a non-entry block is marked dead iff every incoming edge is
dead, (ii) the entry block is never marked dead, (iii) a block marked dead
gets every outgoing edge marked dead, and (iv) the block is never marked
both certain and dead. -/
theorem checkBlock_liveness_consistency (cfg : CFG) (s : IAState) (BB : Nat)
    (hchk : shouldCheckBlock s BB = true) :
    (BB ≠ cfg.entry →
       (BB ∈ (checkBlock cfg s BB).deadBlocks ↔
         ∀ P ∈ cfg.preds BB, edgeIsDead s P BB = true))
  ∧ (BB = cfg.entry → BB ∉ (checkBlock cfg s BB).deadBlocks)
  ∧ (BB ∈ (checkBlock cfg s BB).deadBlocks →
       ∀ S ∈ cfg.succs BB, (BB, S) ∈ (checkBlock cfg s BB).deadEdges)
  ∧ ¬(BB ∈ (checkBlock cfg s BB).certainBlocks ∧ BB ∈ (checkBlock cfg s BB).deadBlocks) := by
  obtain ⟨hnd, hnc⟩ := shouldCheckBlock_spec s BB hchk
  rw [checkBlock_result cfg s BB hchk]
  refine ⟨?_, ?_, ?_, ?_⟩
  · intro hne
    rw [checkBlockFlags_fst cfg s BB hne]
    cases hall : (cfg.preds BB).all fun P => edgeIsDead s P BB
    · simp only [hall, Bool.false_eq_true, if_false]
      constructor
      · intro hm; exact absurd hm hnd
      · intro hforall
        have : ((cfg.preds BB).all fun P => edgeIsDead s P BB) = true :=
          List.all_eq_true.mpr hforall
        rw [this] at hall; cases hall
    · simp only [hall, if_true]
      constructor
      · intro _; exact List.all_eq_true.mp hall
      · intro _; exact List.mem_cons_self BB s.deadBlocks
  · intro he
    have hf : (checkBlockFlags cfg s BB).1 = false := by
      unfold checkBlockFlags; rw [if_pos he]
    simp only [hf, Bool.false_eq_true, if_false]
    exact hnd
  · intro hm S hS
    cases hfd : (checkBlockFlags cfg s BB).1
    · simp only [hfd, Bool.false_eq_true, if_false] at hm
      exact absurd hm hnd
    · simp only [hfd, if_true]
      exact List.mem_append_left _ (List.mem_map.mpr ⟨S, hS, rfl⟩)
  · rintro ⟨hcert, hdead⟩
    cases hfd : (checkBlockFlags cfg s BB).1
    · simp only [hfd, Bool.false_eq_true, if_false] at hdead
      exact absurd hdead hnd
    · simp only [hfd, Bool.not_true, Bool.false_and, Bool.false_eq_true,
        if_false] at hcert
      exact absurd hcert hnc

/-- A concrete CFG for the C1 witness and the C4 counterexample: entry 0,
block 1 with single predecessor 0 and successor 2, and every instruction
living in block 1. -/
def cfgEx : CFG :=
  { entry := 0,
    preds := fun b => if b = 1 then [0] else [],
    succs := fun b => if b = 1 then [2] else [],
    instBlock := fun _ => 1 }

/-- A concrete state in which the only incoming edge of block 1 is dead and
instruction 5 of block 1 carries the improvement (7, 0). -/
def sEx : IAState :=
  { deadEdges := [(0, 1)], deadBlocks := [], certainBlocks := [],
    improvedValues := [(5, (7, 0))] }

/-- Witness for C1: block 1 of cfgEx, whose only incoming edge is dead, is
classified; the theorem then marks it dead. -/
theorem checkBlock_liveness_consistency_witness :
    1 ∈ (checkBlock cfgEx sEx 1).deadBlocks :=
  ((checkBlock_liveness_consistency cfgEx sEx 1 (by decide)).1 (by decide)).mpr
    (by decide)

/- ===================================================================
   Monotonicity of the side tables (claim C4): checkBlock, setEdgeDead
   and the guarded improvement writer of IntegrationAttempt::tryEvaluate.
   =================================================================== -/

/-- IntegrationAttempt::setEdgeDead (deadEdges.insert). -/
def setEdgeDead (s : IAState) (e : Nat × Nat) : IAState :=
  { s with deadEdges := e :: s.deadEdges }

/-- getDefaultVC: the unimproved ValCtx of a value in a context. -/
def getDefaultVC (V ctx : Nat) : Nat × Nat := (V, ctx)

/-- IntegrationAttempt::getReplacement: the recorded improvement of V, or
its default ValCtx when none is recorded. -/
def getReplacement (s : IAState) (V ctx : Nat) : Nat × Nat :=
  match s.improvedValues.lookup V with
  | some vc => vc
  | none => getDefaultVC V ctx

/-- IntegrationAttempt::setReplacement (improvedValues[V] = vc). -/
def setReplacement (s : IAState) (V : Nat) (vc : Nat × Nat) : IAState :=
  { s with improvedValues := (V, vc) :: s.improvedValues }

/-- IntegrationAttempt::shouldTryEvaluate: a value that is already improved,
or an instruction sitting in a dead block, is not (re)evaluated. -/
def shouldTryEvaluate (cfg : CFG) (s : IAState) (V ctx : Nat) : Bool :=
  if getReplacement s V ctx ≠ getDefaultVC V ctx then false
  else !(blockIsDead s (cfg.instBlock V))

/-- IntegrationAttempt::tryEvaluate, with the value computed by
tryEvaluateResult abstracted as `res` and shouldForwardValue as `fwd`:
tryEvaluateResult returns VCNull whenever shouldTryEvaluate fails (its
first check), modelled by the guard; the improvement is recorded only when
a value was produced and shouldForwardValue accepts it. -/
def tryEvaluateStep (cfg : CFG) (s : IAState) (V ctx : Nat)
    (res : Option (Nat × Nat)) (fwd : Nat × Nat → Bool) : IAState :=
  match (if shouldTryEvaluate cfg s V ctx then res else none) with
  | some vc => if fwd vc then setReplacement s V vc else s
  | none => s

/-- Counterexample to C4 as stated: improvements are not append-only.
Block 1 of cfgEx has its only incoming edge dead, so checkBlock marks it
dead — and erases the recorded improvement of instruction 5, which lives
in block 1.  A fact of the kind "value gains an improvement" is therefore
retracted by a later operation of the same run. -/
theorem improvement_retracted_counterexample :
    (5, (7, 0)) ∈ sEx.improvedValues ∧
    (5, (7, 0)) ∉ (checkBlock cfgEx sEx 1).improvedValues := by
  decide

/-- C4 (amended).  Within one run the lattice is monotone except for the
documented discard: dead edges, dead blocks and certain blocks are never
retracted by checkBlock or setEdgeDead; an existing (non-default) improvement
is never overwritten by tryEvaluate; an improvement is erased only when the
block holding its instruction is simultaneously marked dead (its facts have
become unreachable); and a block already classified is never reclassified. -/
theorem liveness_monotonicity_amended (cfg : CFG) (s : IAState) (BB : Nat)
    (V ctx : Nat) (res : Option (Nat × Nat)) (fwd : Nat × Nat → Bool) (e : Nat × Nat) :
    (∀ d ∈ s.deadEdges, d ∈ (checkBlock cfg s BB).deadEdges)
  ∧ (∀ b ∈ s.deadBlocks, b ∈ (checkBlock cfg s BB).deadBlocks)
  ∧ (∀ b ∈ s.certainBlocks, b ∈ (checkBlock cfg s BB).certainBlocks)
  ∧ (∀ p ∈ s.improvedValues, p ∉ (checkBlock cfg s BB).improvedValues →
       cfg.instBlock p.1 = BB ∧ BB ∈ (checkBlock cfg s BB).deadBlocks)
  ∧ (∀ d ∈ s.deadEdges, d ∈ (setEdgeDead s e).deadEdges)
  ∧ (∀ vc, s.improvedValues.lookup V = some vc → vc ≠ getDefaultVC V ctx →
       (tryEvaluateStep cfg s V ctx res fwd).improvedValues.lookup V = some vc)
  ∧ (∀ p ∈ s.improvedValues, p ∈ (tryEvaluateStep cfg s V ctx res fwd).improvedValues)
  ∧ (shouldCheckBlock s BB = false → checkBlock cfg s BB = s) := by
  have hskip : ∀ (h : shouldCheckBlock s BB = false), checkBlock cfg s BB = s :=
    checkBlock_skip cfg s BB
  have hstep : ∀ p ∈ s.improvedValues,
      p ∈ (tryEvaluateStep cfg s V ctx res fwd).improvedValues := by
    intro p hp
    unfold tryEvaluateStep
    split
    · split
      · exact List.mem_cons_of_mem _ hp
      · exact hp
    · exact hp
  by_cases hchk : shouldCheckBlock s BB = true
  · rw [checkBlock_result cfg s BB hchk]
    refine ⟨?_, ?_, ?_, ?_, ?_, ?_, hstep, ?_⟩
    · intro d hd
      cases hfd : (checkBlockFlags cfg s BB).1 <;> simp [hfd, hd]
    · intro b hb
      cases hfd : (checkBlockFlags cfg s BB).1 <;> simp [hfd, hb, List.mem_cons_of_mem]
    · intro b hb
      cases hfc : !(checkBlockFlags cfg s BB).1 && (checkBlockFlags cfg s BB).2 <;>
        simp [hfc, hb, List.mem_cons_of_mem]
    · intro p hp hnp
      cases hfd : (checkBlockFlags cfg s BB).1
      · simp only [hfd, Bool.false_eq_true, if_false] at hnp
        exact absurd hp hnp
      · simp only [hfd, if_true] at hnp ⊢
        refine ⟨?_, List.mem_cons_self _ _⟩
        by_contra hne
        exact hnp (List.mem_filter.mpr ⟨hp, by simp [hne]⟩)
    · intro d hd
      exact List.mem_cons_of_mem _ hd
    · intro vc hvc hne
      have hrep : getReplacement s V ctx = vc := by
        unfold getReplacement; rw [hvc]
      have hguard : shouldTryEvaluate cfg s V ctx = false := by
        unfold shouldTryEvaluate
        rw [if_pos (by rw [hrep]; exact hne)]
      unfold tryEvaluateStep
      rw [hguard]
      simpa using hvc
    · intro h; rw [h] at hchk; cases hchk
  · have hf : shouldCheckBlock s BB = false := by
      cases h : shouldCheckBlock s BB
      · rfl
      · exact absurd h hchk
    rw [hskip hf]
    refine ⟨fun d hd => hd, fun b hb => hb, fun b hb => hb,
      fun p hp hnp => absurd hp hnp, fun d hd => List.mem_cons_of_mem _ hd,
      ?_, hstep, fun _ => rfl⟩
    intro vc hvc hne
    have hrep : getReplacement s V ctx = vc := by
      unfold getReplacement; rw [hvc]
    have hguard : shouldTryEvaluate cfg s V ctx = false := by
      unfold shouldTryEvaluate
      rw [if_pos (by rw [hrep]; exact hne)]
    unfold tryEvaluateStep
    rw [hguard]
    simpa using hvc

/-- Witness for C4 (amended): in the concrete cfgEx/sEx run, checkBlock on
block 1 preserves the dead edge (0, 1), and a guarded tryEvaluate preserves
the recorded improvement of instruction 5. -/
theorem liveness_monotonicity_amended_witness :
    (0, 1) ∈ (checkBlock cfgEx sEx 1).deadEdges ∧
    (tryEvaluateStep cfgEx sEx 5 0 (some (9, 9)) (fun _ => true)).improvedValues.lookup 5 =
      some (7, 0) :=
  ⟨(liveness_monotonicity_amended cfgEx sEx 1 5 0 (some (9, 9)) (fun _ => true) (0, 0)).1
      (0, 1) (by decide),
   (liveness_monotonicity_amended cfgEx sEx 1 5 0 (some (9, 9)) (fun _ => true) (0, 0)).2.2.2.2.2.1
      (7, 0) (by decide) (by decide)⟩

/- ===================================================================
   Return-value resolution (InlineAttempt::localFoldConstants of
   LoopPeelHeuristics.cpp): a call's return value is known when exactly
   one live 'ret' remains and its operand is known.
   =================================================================== -/

/-- One basic block as the return-value scan sees it: whether
HypotheticalConstantFolder::blockIsDead holds of it under the current
ignore-edge set, and the operand of its ReturnInst terminator if it has
one. -/
structure RetBlock where
  dead : Bool
  ret : Option Nat
  deriving DecidableEq

/-- The data localFoldConstants consults: the function's blocks in order,
dyn_cast to Constant on a value, and the initialConsts improvement map. -/
structure RetEnv where
  blocks : List RetBlock
  asConstant : Nat → Option Nat
  initialConsts : Nat → Option Nat

/-- The operand resolution inside the scan: a literal constant, otherwise
the initialConsts entry, otherwise nothing. -/
def resolveConst (env : RetEnv) (op : Nat) : Option Nat :=
  match env.asConstant op with
  | some c => some c
  | none => env.initialConsts op

/-- The return-instruction scan of localFoldConstants: walk the live blocks
in order; a second live return clears returnVal and moves on; the first
live return records its operand's constant (if known) and otherwise leaves
returnVal as it was. -/
def localFoldReturnScan (env : RetEnv) :
    List RetBlock → Bool → Option Nat → Option Nat
  | [], _, returnVal => returnVal
  | b :: rest, foundReturnInst, returnVal =>
    if b.dead then localFoldReturnScan env rest foundReturnInst returnVal
    else
      match b.ret with
      | none => localFoldReturnScan env rest foundReturnInst returnVal
      | some op =>
        if foundReturnInst then localFoldReturnScan env rest foundReturnInst none
        else
          match resolveConst env op with
          | some c => localFoldReturnScan env rest true (some c)
          | none => localFoldReturnScan env rest true returnVal

/-- The return-value portion of InlineAttempt::localFoldConstants: only
runs when no return value is known yet and the function is non-void. -/
def localFoldReturnValue (env : RetEnv) (returnVal : Option Nat) (isVoidTy : Bool) :
    Option Nat :=
  if returnVal.isNone && !isVoidTy then localFoldReturnScan env env.blocks false returnVal
  else returnVal

/-- The live blocks ending in a return instruction, in function order. -/
def liveReturnBlocks (blocks : List RetBlock) : List RetBlock :=
  blocks.filter fun b => !b.dead && b.ret.isSome

theorem localFoldReturnScan_no_live (env : RetEnv) :
    ∀ (l : List RetBlock), liveReturnBlocks l = [] →
      ∀ (f : Bool) (rv : Option Nat), localFoldReturnScan env l f rv = rv := by
  intro l
  induction l with
  | nil => intro _ f rv; rfl
  | cons b rest ih =>
    intro hl f rv
    unfold liveReturnBlocks at hl ih
    rw [List.filter_cons] at hl
    by_cases hd : b.dead = true
    · rw [if_neg (by simp [hd])] at hl
      unfold localFoldReturnScan
      rw [if_pos hd]
      exact ih hl f rv
    · have hd' : b.dead = false := by
        cases h : b.dead
        · rfl
        · exact absurd h hd
      cases hr : b.ret with
      | none =>
        rw [if_neg (by simp [hd', hr])] at hl
        unfold localFoldReturnScan
        rw [if_neg (by simp [hd']), hr]
        exact ih hl f rv
      | some op =>
        rw [if_pos (by simp [hd', hr])] at hl
        cases hl

theorem localFoldReturnScan_after_found (env : RetEnv) :
    ∀ (l : List RetBlock), liveReturnBlocks l ≠ [] →
      ∀ (rv : Option Nat), localFoldReturnScan env l true rv = none := by
  intro l
  induction l with
  | nil => intro h; exact absurd rfl h
  | cons b rest ih =>
    intro hl rv
    unfold liveReturnBlocks at hl ih
    rw [List.filter_cons] at hl
    by_cases hd : b.dead = true
    · rw [if_neg (by simp [hd])] at hl
      unfold localFoldReturnScan
      rw [if_pos hd]
      exact ih hl rv
    · have hd' : b.dead = false := by
        cases h : b.dead
        · rfl
        · exact absurd h hd
      cases hr : b.ret with
      | none =>
        rw [if_neg (by simp [hd', hr])] at hl
        unfold localFoldReturnScan
        rw [if_neg (by simp [hd']), hr]
        exact ih hl rv
      | some op =>
        unfold localFoldReturnScan
        rw [if_neg (by simp [hd']), hr]
        show localFoldReturnScan env rest true none = none
        by_cases hrest : liveReturnBlocks rest = []
        · exact localFoldReturnScan_no_live env rest hrest true none
        · exact ih hrest none

theorem localFoldReturnScan_unique (env : RetEnv) :
    ∀ (l : List RetBlock) (b : RetBlock) (op : Nat),
      liveReturnBlocks l = [b] → b.ret = some op →
      localFoldReturnScan env l false none = resolveConst env op := by
  intro l
  induction l with
  | nil => intro b op h; cases h
  | cons bh rest ih =>
    intro b op hl hop
    unfold liveReturnBlocks at hl ih
    rw [List.filter_cons] at hl
    by_cases hd : bh.dead = true
    · rw [if_neg (by simp [hd])] at hl
      unfold localFoldReturnScan
      rw [if_pos hd]
      exact ih b op hl hop
    · have hd' : bh.dead = false := by
        cases h : bh.dead
        · rfl
        · exact absurd h hd
      cases hr : bh.ret with
      | none =>
        rw [if_neg (by simp [hd', hr])] at hl
        unfold localFoldReturnScan
        rw [if_neg (by simp [hd']), hr]
        exact ih b op hl hop
      | some oph =>
        rw [if_pos (by simp [hd', hr])] at hl
        have hb : bh = b := (List.cons_eq_cons.mp hl).1
        have hrest : List.filter (fun x => !x.dead && x.ret.isSome) rest = [] :=
          (List.cons_eq_cons.mp hl).2
        have hopeq : oph = op := by
          rw [hb, hop] at hr
          exact (Option.some_inj.mp hr).symm
        unfold localFoldReturnScan
        rw [if_neg (by simp [hd']), hr, hopeq]
        cases hres : resolveConst env op with
        | some c =>
          show (match resolveConst env op with
                | some c => localFoldReturnScan env rest true (some c)
                | none => localFoldReturnScan env rest true none) = some c
          rw [hres]
          exact localFoldReturnScan_no_live env rest hrest true (some c)
        | none =>
          show (match resolveConst env op with
                | some c => localFoldReturnScan env rest true (some c)
                | none => localFoldReturnScan env rest true none) = none
          rw [hres]
          exact localFoldReturnScan_no_live env rest hrest true none
  
theorem localFoldReturnScan_multi (env : RetEnv) :
    ∀ (l : List RetBlock), 2 ≤ (liveReturnBlocks l).length →
      localFoldReturnScan env l false none = none := by
  intro l
  induction l with
  | nil => intro h; cases h
  | cons bh rest ih =>
    intro hl
    unfold liveReturnBlocks at hl ih
    rw [List.filter_cons] at hl
    by_cases hd : bh.dead = true
    · rw [if_neg (by simp [hd])] at hl
      unfold localFoldReturnScan
      rw [if_pos hd]
      exact ih hl
    · have hd' : bh.dead = false := by
        cases h : bh.dead
        · rfl
        · exact absurd h hd
      cases hr : bh.ret with
      | none =>
        rw [if_neg (by simp [hd', hr])] at hl
        unfold localFoldReturnScan
        rw [if_neg (by simp [hd']), hr]
        exact ih hl
      | some oph =>
        rw [if_pos (by simp [hd', hr])] at hl
        have hrest : List.filter (fun x => !x.dead && x.ret.isSome) rest ≠ [] := by
          intro he
          rw [List.length_cons, he] at hl
          simp at hl
        unfold localFoldReturnScan
        rw [if_neg (by simp [hd']), hr]
        cases hres : resolveConst env oph with
        | some c =>
          show (match resolveConst env oph with
                | some c => localFoldReturnScan env rest true (some c)
                | none => localFoldReturnScan env rest true none) = none
          rw [hres]
          exact localFoldReturnScan_after_found env rest hrest (some c)
        | none =>
          show (match resolveConst env oph with
                | some c => localFoldReturnScan env rest true (some c)
                | none => localFoldReturnScan env rest true none) = none
          rw [hres]
          exact localFoldReturnScan_after_found env rest hrest none

/-- C6.  Return-value resolution: when exactly one live block of the callee
ends in a return, the call's return value resolves to that return operand's
improvement (a literal constant or its initialConsts entry, and nothing when
neither is known); as soon as two or more live returns remain, the return
value is unknown. -/
theorem return_value_resolution (env : RetEnv) (b : RetBlock) :
    (∀ op, liveReturnBlocks env.blocks = [b] → b.ret = some op →
       localFoldReturnValue env none false = resolveConst env op)
  ∧ (2 ≤ (liveReturnBlocks env.blocks).length →
       localFoldReturnValue env none false = none) := by
  constructor
  · intro op hl hop
    unfold localFoldReturnValue
    rw [if_pos (by simp)]
    exact localFoldReturnScan_unique env env.blocks b op hl hop
  · intro hl
    unfold localFoldReturnValue
    rw [if_pos (by simp)]
    exact localFoldReturnScan_multi env env.blocks hl

/-- A concrete callee for the C6 witness: a dead block with a return of
value 9, and one live block returning value 3, which initialConsts knows
to be 42. -/
def retEnvEx : RetEnv :=
  { blocks := [⟨true, some 9⟩, ⟨false, some 3⟩, ⟨false, none⟩],
    asConstant := fun _ => none,
    initialConsts := fun v => if v = 3 then some 42 else none }

/-- Witness for C6: the unique live return of retEnvEx resolves the return
value to the improvement of its operand. -/
theorem return_value_resolution_witness :
    localFoldReturnValue retEnvEx none false = resolveConst retEnvEx 3 :=
  (return_value_resolution retEnvEx ⟨false, some 3⟩).1 3 (by decide) rfl

/- ===================================================================
   Program mutation by InlineAttempt::tryResolveLoadAtChildSite
   (LoopPeelHeuristics.cpp): the symbolic-expression chain is reified as
   real GEP/BitCast instructions built just before the call site.
   =================================================================== -/

/-- The symbolic-expression nodes of a load query chain: GEP and Cast
operators, an activation-frame marker, and the terminal thunk holding the
real value. -/
inductive SymExpr where
  | symGEP (offsets : List Nat)
  | symCast (toType : Nat)
  | symOuter
  | symThunk (realVal : Nat)
  deriving DecidableEq

/-- An instruction built by IRBuilder during the query: CreateGEP or
CreateBitCast. -/
inductive TempInst where
  | gepInst (offsets : List Nat)
  | castInst (toType : Nat)
  deriving DecidableEq

/-- The instruction built from one chain element (the function asserts that
only GEPs and Casts occur here; the fallback arm is unreachable on any
chain the caller constructs). -/
def createTempInst : SymExpr → TempInst
  | .symGEP offs => .gepInst offs
  | .symCast t => .castInst t
  | _ => .castInst 0

/-- Count and strip the SymOuter run that precedes the SymThunk when the
chain is read backwards. -/
def stripOuters : List SymExpr → Nat × List SymExpr
  | .symOuter :: rest =>
    let r := stripOuters rest
    (r.1 + 1, r.2)
  | l => (0, l)

/-- The instructions tryResolveLoadAtChildSite inserts into the caller's
block before making its memory-dependence query: the in-chain is read
backwards from its end — the SymThunk, then the run of SymOuters (two or
more aborts the query with no insertion), and then each remaining element
is reified except the first one reached (the iterator is decremented
before each use).  The function returns without ever erasing what it
inserted. -/
def tryResolveLoadTempInsts (inChain : List SymExpr) : List TempInst :=
  match inChain.reverse with
  | [] => []
  | _thunk :: rest =>
    let stripped := stripOuters rest
    if stripped.1 ≥ 2 then []
    else
      match stripped.2 with
      | [] => []
      | _ :: midRev => midRev.map createTempInst

/-- InlineHeuristicsPass::runOnModule returns false, declaring to the pass
manager that the module was not modified. -/
def inlineHeuristicsRunOnModuleChanged : Bool := false

/-- LoopPeelHeuristicsPass::runOnFunction returns false, declaring to the
pass manager that the function was not modified. -/
def loopPeelHeuristicsRunOnFunctionChanged : Bool := false

/-- C7 fails on the code: on the chain GEP·GEP·Outer·Thunk the analyzer
inserts a real GEP instruction into the function under analysis (and never
removes it), while both pass entry points report the program unchanged.
This contradicts the claim that the analyzer never inserts code and only
writes side tables. -/
theorem tryResolveLoad_inserts_instructions :
    tryResolveLoadTempInsts
        [.symGEP [0], .symGEP [1], .symOuter, .symThunk 9] = [.gepInst [0]]
  ∧ tryResolveLoadTempInsts
        [.symGEP [0], .symGEP [1], .symOuter, .symThunk 9] ≠ []
  ∧ inlineHeuristicsRunOnModuleChanged = false
  ∧ loopPeelHeuristicsRunOnFunctionChanged = false := by
  refine ⟨rfl, ?_, rfl, rfl⟩
  intro h
  cases h

/- ===================================================================
   PHI evaluation (IntegrationAttempt::getPHINodeValue,
   shouldForwardValue, PeelIteration::getLoopHeaderPHIValue) and the
   LCSSA exit constraint (getPHINodeValue's child-loop branch and
   IntegrationAttempt::walkOperand).
   Values and contexts are numbers; a ValCtx is a (value, context) pair.
   =================================================================== -/

/-- PeelAttempt::iterStatus. -/
inductive IterationStatus where
  | statusUnknown
  | statusFinal
  deriving DecidableEq

/-- One PeelIteration as seen from outside: its status and its
getReplacement map. -/
structure IterationCtx where
  iterStatus : IterationStatus
  replacement : Nat → Nat × Nat

/-- A PeelAttempt: its ordered iterations. -/
structure PeelAttemptM where
  iterations : List IterationCtx

/-- Everything getPHINodeValue consults for one PHI node in one context:
the predecessor blocks of the PHI's block, edge deadness, the incoming
value per predecessor, the loop scopes of the PHI and of values
(getValueScope; none is the function root), loop containment, the peel
attempts of child loops, this context's getReplacement, and the three
tests behind shouldForwardValue. -/
structure PhiEnv where
  preds : List Nat
  edgeDead : Nat → Bool
  incomingValue : Nat → Nat
  phiScope : Option Nat
  valueScope : Nat → Option Nat
  loopContains : Nat → Nat → Bool
  peelAttempt : Option Nat → Option PeelAttemptM
  replacement : Nat → Nat × Nat
  isConstant : Nat → Bool
  isPointer : Nat → Bool
  underlyingIsIdentified : Nat × Nat → Bool
  forwardableOpenCall : Nat × Nat → Bool

/-- IntegrationAttempt::shouldForwardValue: constants always forward;
pointers forward when their ultimate underlying object is identified;
forwardable open calls (symbolic file handles) forward; nothing else
does. -/
def shouldForwardValue (env : PhiEnv) (V : Nat × Nat) : Bool :=
  if env.isConstant V.1 then true
  else if env.isPointer V.1 && env.underlyingIsIdentified V then true
  else if env.forwardableOpenCall V then true
  else false

/-- The test `((!phiLoop) && predLoop) || (phiLoop && !predLoop->contains(phiLoop))`
deciding that a PHI operand comes from a descendant loop and must be read
through that loop's final iteration (a null predLoop cannot contain a
non-null phiLoop). -/
def predFromDescendantLoop (phiLoop predLoop : Option Nat)
    (contains : Nat → Nat → Bool) : Bool :=
  match phiLoop, predLoop with
  | none, some _ => true
  | none, none => false
  | some pl, some ql => !(contains ql pl)
  | some _, none => true

/-- The value getPHINodeValue reads for one live predecessor: an operand
from a descendant loop is read from the last iteration of that loop's peel
attempt, and only when that iteration's status is Final (otherwise the PHI
evaluation fails, modelled as none); any other operand is read with
getReplacement in this context. -/
def getPHIPredValue (env : PhiEnv) (P : Nat) : Option (Nat × Nat) :=
  let oldValue := env.incomingValue P
  let predLoop := env.valueScope oldValue
  if predFromDescendantLoop env.phiScope predLoop env.loopContains then
    match env.peelAttempt predLoop with
    | some PA =>
      match PA.iterations.getLast? with
      | some finalIter =>
        if finalIter.iterStatus = .statusFinal then
          some (finalIter.replacement oldValue)
        else none
      | none => none
    | none => none
  else
    some (env.replacement oldValue)

/-- The predecessor loop of getPHINodeValue: skip dead edges; a failed
operand read aborts with no value; the first live value seeds onlyValue
and any disagreeing later value aborts with no value. -/
def getPHINodeValueLoop (env : PhiEnv) :
    List Nat → Option (Nat × Nat) → Option (Nat × Nat)
  | [], onlyValue => onlyValue
  | P :: rest, onlyValue =>
    if env.edgeDead P then getPHINodeValueLoop env rest onlyValue
    else
      match getPHIPredValue env P with
      | none => none
      | some predValue =>
        match onlyValue with
        | none => getPHINodeValueLoop env rest (some predValue)
        | some v =>
          if v = predValue then getPHINodeValueLoop env rest onlyValue
          else none

/-- IntegrationAttempt::getPHINodeValue: a loop-header PHI in a peel
iteration takes the value computed by getLoopHeaderPHIValue (passed here
as `loopHeaderPHIValue`; none for every other PHI, as the base-class
override always returns false); every other PHI scans its predecessors;
either way the result is forwarded only when shouldForwardValue accepts
it. -/
def getPHINodeValue (env : PhiEnv) (loopHeaderPHIValue : Option (Nat × Nat)) :
    Option (Nat × Nat) :=
  let onlyValue :=
    match loopHeaderPHIValue with
    | some r => some r
    | none => getPHINodeValueLoop env env.preds none
  match onlyValue with
  | some v => if shouldForwardValue env v then some v else none
  | none => none

/-- Everything PeelIteration::getLoopHeaderPHIValue consults: the
iteration ordinal, the parent context's getReplacement, the getReplacement
of each iteration of the owning PeelAttempt (parentPA->getIteration), the
PHI's incoming values for the loop preheader and latch, and whether the
PHI sits in the loop header. -/
structure PeelIterationEnv where
  iterationCount : Nat
  parentReplacement : Nat → Nat × Nat
  iterationReplacement : Nat → Nat → Nat × Nat
  preheaderIncoming : Nat
  latchIncoming : Nat
  isHeaderPHI : Bool

/-- PeelIteration::getLoopHeaderPHIValue: a header PHI reads the preheader
incoming value from the parent context in iteration 0, and the latch
incoming value from the previous iteration otherwise; any other PHI is
left to the generic path. -/
def getLoopHeaderPHIValue (env : PeelIterationEnv) : Option (Nat × Nat) :=
  if env.isHeaderPHI then
    if env.iterationCount = 0 then
      some (env.parentReplacement env.preheaderIncoming)
    else
      some (env.iterationReplacement (env.iterationCount - 1) env.latchIncoming)
  else none

/-- The context a backward-walk predecessor is queued in. -/
inductive BWCtx where
  | parentCtx
  | iterCtx (n : Nat)
  | selfCtx
  deriving DecidableEq

/-- PeelIteration::queuePredecessorsBW: from the loop header, iteration 0
queues only the preheader in the parent context and iteration n>0 queues
only the previous iteration's latch; any other block queues its normal
predecessors. -/
def peelQueuePredecessorsBW (iterationCount : Nat)
    (header preheader latch fromBB : Nat)
    (normalPreds : List (Nat × BWCtx)) : List (Nat × BWCtx) :=
  if fromBB = header then
    if iterationCount = 0 then [(preheader, BWCtx.parentCtx)]
    else [(latch, BWCtx.iterCtx (iterationCount - 1))]
  else normalPreds

theorem getPHINodeValueLoop_some (env : PhiEnv) :
    ∀ (l : List Nat) (acc : Option (Nat × Nat)) (v : Nat × Nat),
      getPHINodeValueLoop env l acc = some v →
      (∀ P ∈ l, env.edgeDead P = false → getPHIPredValue env P = some v) ∧
      (acc = some v ∨ acc = none) := by
  intro l
  induction l with
  | nil =>
    intro acc v h
    exact ⟨fun P hP => absurd hP (List.not_mem_nil P), Or.inl h⟩
  | cons P rest ih =>
    intro acc v h
    unfold getPHINodeValueLoop at h
    by_cases hdead : env.edgeDead P = true
    · rw [if_pos hdead] at h
      obtain ⟨hrest, hacc⟩ := ih acc v h
      refine ⟨?_, hacc⟩
      intro Q hQ hQlive
      rcases List.mem_cons.mp hQ with hq | hq
      · rw [hq] at hQlive; rw [hQlive] at hdead; cases hdead
      · exact hrest Q hq hQlive
    · have hdead' : env.edgeDead P = false := by
        cases hx : env.edgeDead P
        · rfl
        · exact absurd hx hdead
      rw [if_neg (by simp [hdead'])] at h
      cases hpv : getPHIPredValue env P with
      | none => rw [hpv] at h; cases h
      | some pv =>
        rw [hpv] at h
        cases acc with
        | none =>
          obtain ⟨hrest, hacc⟩ := ih (some pv) v h
          have hpveq : pv = v := by
            rcases hacc with hx | hx
            · exact Option.some_inj.mp hx
            · cases hx
          refine ⟨?_, Or.inr rfl⟩
          intro Q hQ hQlive
          rcases List.mem_cons.mp hQ with hq | hq
          · rw [hq, hpv, hpveq]
          · exact hrest Q hq hQlive
        | some w =>
          have h2 : (if w = pv then getPHINodeValueLoop env rest (some w) else none) =
              some v := h
          by_cases hw : w = pv
          · rw [if_pos hw] at h2
            obtain ⟨hrest, hacc⟩ := ih (some w) v h2
            have hweq : w = v := by
              rcases hacc with hx | hx
              · exact Option.some_inj.mp hx
              · cases hx
            refine ⟨?_, Or.inl (by rw [hweq])⟩
            intro Q hQ hQlive
            rcases List.mem_cons.mp hQ with hq | hq
            · rw [hq, hpv, ← hw, hweq]
            · exact hrest Q hq hQlive
          · rw [if_neg hw] at h2; cases h2

theorem getPHINodeValueLoop_agree (env : PhiEnv) (K : Nat × Nat) :
    ∀ (l : List Nat),
      (∀ P ∈ l, env.edgeDead P = false → getPHIPredValue env P = some K) →
      getPHINodeValueLoop env l (some K) = some K := by
  intro l
  induction l with
  | nil => intro _; rfl
  | cons P rest ih =>
    intro hall
    unfold getPHINodeValueLoop
    by_cases hdead : env.edgeDead P = true
    · rw [if_pos hdead]
      exact ih fun Q hQ hl => hall Q (List.mem_cons_of_mem P hQ) hl
    · have hdead' : env.edgeDead P = false := by
        cases hx : env.edgeDead P
        · rfl
        · exact absurd hx hdead
      rw [if_neg (by simp [hdead'])]
      rw [hall P (List.mem_cons_self P rest) hdead']
      show (if K = K then getPHINodeValueLoop env rest (some K) else none) = some K
      rw [if_pos rfl]
      exact ih fun Q hQ hl => hall Q (List.mem_cons_of_mem P hQ) hl

theorem getPHINodeValueLoop_agree_from_none (env : PhiEnv) (K : Nat × Nat) :
    ∀ (l : List Nat),
      (∀ P ∈ l, env.edgeDead P = false → getPHIPredValue env P = some K) →
      (∃ P ∈ l, env.edgeDead P = false) →
      getPHINodeValueLoop env l none = some K := by
  intro l
  induction l with
  | nil => rintro _ ⟨P, hP, _⟩; exact absurd hP (List.not_mem_nil P)
  | cons P rest ih =>
    rintro hall ⟨Q, hQ, hQlive⟩
    unfold getPHINodeValueLoop
    by_cases hdead : env.edgeDead P = true
    · rw [if_pos hdead]
      refine ih (fun R hR hl => hall R (List.mem_cons_of_mem P hR) hl) ⟨Q, ?_, hQlive⟩
      rcases List.mem_cons.mp hQ with hq | hq
      · rw [hq] at hQlive; rw [hQlive] at hdead; cases hdead
      · exact hq
    · have hdead' : env.edgeDead P = false := by
        cases hx : env.edgeDead P
        · rfl
        · exact absurd hx hdead
      rw [if_neg (by simp [hdead'])]
      rw [hall P (List.mem_cons_self P rest) hdead']
      exact getPHINodeValueLoop_agree env K rest
        fun R hR hl => hall R (List.mem_cons_of_mem P hR) hl

theorem getPHINodeValueLoop_fail (env : PhiEnv) :
    ∀ (l : List Nat) (P : Nat), P ∈ l → env.edgeDead P = false →
      getPHIPredValue env P = none →
      ∀ (acc : Option (Nat × Nat)), getPHINodeValueLoop env l acc = none := by
  intro l
  induction l with
  | nil => intro P hP; exact absurd hP (List.not_mem_nil P)
  | cons Q rest ih =>
    intro P hP hPlive hPfail acc
    unfold getPHINodeValueLoop
    rcases List.mem_cons.mp hP with hq | hq
    · rw [← hq, if_neg (by simp [hPlive]), hPfail]
    · by_cases hdead : env.edgeDead Q = true
      · rw [if_pos hdead]
        exact ih P hq hPlive hPfail acc
      · have hdead' : env.edgeDead Q = false := by
          cases hx : env.edgeDead Q
          · rfl
          · exact absurd hx hdead
        rw [if_neg (by simp [hdead'])]
        cases hqv : getPHIPredValue env Q with
        | none => rfl
        | some qv =>
          cases acc with
          | none => exact ih P hq hPlive hPfail (some qv)
          | some w =>
            show (if w = qv then getPHINodeValueLoop env rest (some w) else none) = none
            by_cases hw : w = qv
            · rw [if_pos hw]
              exact ih P hq hPlive hPfail (some w)
            · rw [if_neg hw]

/-- A concrete PHI environment falsifying C2 as stated: one live
predecessor (block 1) carrying value 3, improved to the ValCtx (3, 0),
which is neither a constant, nor an identified pointer, nor a symbolic
handle. -/
def cexPhiEnv : PhiEnv :=
  { preds := [1],
    edgeDead := fun _ => false,
    incomingValue := fun _ => 3,
    phiScope := none,
    valueScope := fun _ => none,
    loopContains := fun _ _ => false,
    peelAttempt := fun _ => none,
    replacement := fun v => (v, 0),
    isConstant := fun _ => false,
    isPointer := fun _ => false,
    underlyingIsIdentified := fun _ => false,
    forwardableOpenCall := fun _ => false }

/-- Counterexample to C2 as stated: every live incoming edge of the PHI
(there is exactly one, from block 1) carries the same improved value
(3, 0), yet the PHI is not improved to it — getPHINodeValue returns
nothing, because shouldForwardValue rejects a value that is not a
constant, an identified pointer or a symbolic handle. -/
theorem phi_forward_filter_counterexample :
    cexPhiEnv.preds = [1]
  ∧ cexPhiEnv.edgeDead 1 = false
  ∧ getPHIPredValue cexPhiEnv 1 = some (3, 0)
  ∧ getPHINodeValue cexPhiEnv none = none := by
  refine ⟨rfl, rfl, rfl, rfl⟩

/-- C2 (amended).  PHI evaluation for a non-loop-header PHI: if all live
incoming edges (dead edges skipped) carry the same improved value K, the
PHI is improved to K provided K passes the forwarding filter (a constant,
a pointer with identified underlying object, or a symbolic open call), and
is left unimproved otherwise; if any two live incoming edges disagree, the
PHI is left unimproved. -/
theorem phi_evaluation_amended (env : PhiEnv) (K : Nat × Nat) :
    ((∀ P ∈ env.preds, env.edgeDead P = false → getPHIPredValue env P = some K) →
     (∃ P ∈ env.preds, env.edgeDead P = false) →
       getPHINodeValue env none = (if shouldForwardValue env K then some K else none))
  ∧ (∀ (v1 v2 : Nat × Nat) (P1 P2 : Nat), P1 ∈ env.preds → P2 ∈ env.preds →
       env.edgeDead P1 = false → env.edgeDead P2 = false →
       getPHIPredValue env P1 = some v1 → getPHIPredValue env P2 = some v2 →
       v1 ≠ v2 → getPHINodeValue env none = none) := by
  constructor
  · intro hall hlive
    unfold getPHINodeValue
    rw [getPHINodeValueLoop_agree_from_none env K env.preds hall hlive]
  · intro v1 v2 P1 P2 hP1 hP2 hl1 hl2 hv1 hv2 hne
    unfold getPHINodeValue
    cases hloop : getPHINodeValueLoop env env.preds none with
    | none => rfl
    | some v =>
      obtain ⟨hallv, _⟩ := getPHINodeValueLoop_some env env.preds none v hloop
      have e1 : v1 = v := Option.some_inj.mp ((hallv P1 hP1 hl1).symm.trans hv1).symm
      have e2 : v2 = v := Option.some_inj.mp ((hallv P2 hP2 hl2).symm.trans hv2).symm
      exact absurd (e1.trans e2.symm) hne

/-- A PHI environment in which the common value is a constant, so that the
forwarding filter accepts it. -/
def agreePhiEnv : PhiEnv :=
  { cexPhiEnv with preds := [1, 2], isConstant := fun _ => true }

/-- Witness for C2 (amended): both live predecessors of agreePhiEnv carry
the constant ValCtx (3, 0) and the PHI is improved accordingly. -/
theorem phi_evaluation_amended_witness :
    getPHINodeValue agreePhiEnv none =
      (if shouldForwardValue agreePhiEnv (3, 0) then some (3, 0) else none) :=
  (phi_evaluation_amended agreePhiEnv (3, 0)).1
    (by intro P hP hl; rcases hP with _ | ⟨_, hP⟩ <;> rfl)
    ⟨1, by decide, rfl⟩

/-- Where IntegrationAttempt::walkOperand delivers its callback. -/
inductive OperandWalkTarget where
  | noCallback
  | finalIterCallback
  | thisCallback
  | parentScopeCallback
  deriving DecidableEq

/-- The test `(!MyL) || MyL->contains(L)` of walkOperand: the operand's
scope is this scope or a descendant of it (Loop::contains of a null loop
is false). -/
def scopeDescends (myScope vScope : Option Nat)
    (containsFn : Nat → Nat → Bool) : Bool :=
  match myScope, vScope with
  | none, _ => true
  | some m, some v => containsFn m v
  | some _, none => false

/-- IntegrationAttempt::walkOperand: an operand from this scope gets the
callback here; one from a child loop gets it in the last iteration of that
loop's peel attempt, and only when that iteration's status is Final
(otherwise walkOperand returns without any callback); one from a parent
scope is handed to callWithScope. -/
def walkOperand (myScope vScope : Option Nat) (containsFn : Nat → Nat → Bool)
    (peelFn : Option Nat → Option PeelAttemptM) : OperandWalkTarget :=
  if vScope ≠ myScope then
    if scopeDescends myScope vScope containsFn then
      match peelFn vScope with
      | none => .noCallback
      | some LPA =>
        match LPA.iterations.getLast? with
        | none => .noCallback
        | some finalI =>
          if finalI.iterStatus ≠ .statusFinal then .noCallback
          else .finalIterCallback
    else .parentScopeCallback
  else .thisCallback

/-- C5.  LCSSA exit constraint: a PHI operand defined in a descendant loop
is resolved only through the last iteration of that loop's peel attempt
and only when that iteration's status is Final; with no peel attempt, or a
last iteration that is not Final, the exit PHI evaluates to nothing
(resolution is refused, not guessed); walkOperand obeys the same rule when
the dead-value fixpoint follows operands. -/
theorem lcssa_exit_constraint (env : PhiEnv) (P : Nat)
    (hP : P ∈ env.preds) (hlive : env.edgeDead P = false)
    (hdesc : predFromDescendantLoop env.phiScope
      (env.valueScope (env.incomingValue P)) env.loopContains = true) :
    (env.peelAttempt (env.valueScope (env.incomingValue P)) = none →
       getPHINodeValue env none = none)
  ∧ (∀ PA, env.peelAttempt (env.valueScope (env.incomingValue P)) = some PA →
       PA.iterations.getLast? = none → getPHINodeValue env none = none)
  ∧ (∀ PA, env.peelAttempt (env.valueScope (env.incomingValue P)) = some PA →
       ∀ finalIter, PA.iterations.getLast? = some finalIter →
         (finalIter.iterStatus ≠ .statusFinal → getPHINodeValue env none = none)
       ∧ (finalIter.iterStatus = .statusFinal →
            getPHIPredValue env P =
              some (finalIter.replacement (env.incomingValue P))))
  ∧ (∀ (myScope vScope : Option Nat) (containsFn : Nat → Nat → Bool)
       (peelFn : Option Nat → Option PeelAttemptM),
       vScope ≠ myScope → scopeDescends myScope vScope containsFn = true →
         (peelFn vScope = none →
            walkOperand myScope vScope containsFn peelFn = .noCallback)
       ∧ (∀ PA, peelFn vScope = some PA →
            ∀ finalIter, PA.iterations.getLast? = some finalIter →
              (finalIter.iterStatus ≠ .statusFinal →
                 walkOperand myScope vScope containsFn peelFn = .noCallback)
            ∧ (finalIter.iterStatus = .statusFinal →
                 walkOperand myScope vScope containsFn peelFn = .finalIterCallback))) := by
  have hfail : ∀ (hnone : getPHIPredValue env P = none),
      getPHINodeValue env none = none := by
    intro hnone
    unfold getPHINodeValue
    rw [getPHINodeValueLoop_fail env env.preds P hP hlive hnone none]
  refine ⟨?_, ?_, ?_, ?_⟩
  · intro hpa
    refine hfail ?_
    unfold getPHIPredValue
    rw [if_pos (by rw [hdesc]), hpa]
  · intro PA hpa hlast
    refine hfail ?_
    unfold getPHIPredValue
    rw [if_pos (by rw [hdesc]), hpa]
    show (match PA.iterations.getLast? with
          | some finalIter =>
            if finalIter.iterStatus = IterationStatus.statusFinal then
              some (finalIter.replacement (env.incomingValue P))
            else none
          | none => none) = none
    rw [hlast]
  · intro PA hpa finalIter hlast
    constructor
    · intro hstat
      refine hfail ?_
      unfold getPHIPredValue
      rw [if_pos (by rw [hdesc]), hpa]
      show (match PA.iterations.getLast? with
          | some finalIter =>
            if finalIter.iterStatus = IterationStatus.statusFinal then
              some (finalIter.replacement (env.incomingValue P))
            else none
          | none => none) = none
      rw [hlast]
      show (if finalIter.iterStatus = IterationStatus.statusFinal then
              some (finalIter.replacement (env.incomingValue P))
            else none) = none
      rw [if_neg hstat]
    · intro hstat
      unfold getPHIPredValue
      rw [if_pos (by rw [hdesc]), hpa]
      show (match PA.iterations.getLast? with
          | some finalIter =>
            if finalIter.iterStatus = IterationStatus.statusFinal then
              some (finalIter.replacement (env.incomingValue P))
            else none
          | none => none) =
        some (finalIter.replacement (env.incomingValue P))
      rw [hlast]
      show (if finalIter.iterStatus = IterationStatus.statusFinal then
              some (finalIter.replacement (env.incomingValue P))
            else none) =
        some (finalIter.replacement (env.incomingValue P))
      rw [if_pos hstat]
  · intro myScope vScope containsFn peelFn hne hdes
    constructor
    · intro hpf
      unfold walkOperand
      rw [if_pos hne, if_pos hdes, hpf]
    · intro PA hpf finalIter hlast
      constructor
      · intro hstat
        unfold walkOperand
        rw [if_pos hne, if_pos hdes, hpf]
        show (match PA.iterations.getLast? with
              | none => OperandWalkTarget.noCallback
              | some finalI =>
                if finalI.iterStatus ≠ IterationStatus.statusFinal then
                  OperandWalkTarget.noCallback
                else OperandWalkTarget.finalIterCallback) = OperandWalkTarget.noCallback
        rw [hlast]
        show (if finalIter.iterStatus ≠ IterationStatus.statusFinal then
                OperandWalkTarget.noCallback
              else OperandWalkTarget.finalIterCallback) = OperandWalkTarget.noCallback
        rw [if_pos hstat]
      · intro hstat
        unfold walkOperand
        rw [if_pos hne, if_pos hdes, hpf]
        show (match PA.iterations.getLast? with
              | none => OperandWalkTarget.noCallback
              | some finalI =>
                if finalI.iterStatus ≠ IterationStatus.statusFinal then
                  OperandWalkTarget.noCallback
                else OperandWalkTarget.finalIterCallback) = OperandWalkTarget.finalIterCallback
        rw [hlast]
        show (if finalIter.iterStatus ≠ IterationStatus.statusFinal then
                OperandWalkTarget.noCallback
              else OperandWalkTarget.finalIterCallback) = OperandWalkTarget.finalIterCallback
        rw [if_neg (by intro hx; exact hx hstat)]

/-- An exit-PHI environment for the C5 witness: the single live
predecessor carries a value from child loop 7, whose peel attempt's last
iteration is still statusUnknown. -/
def lcssaPhiEnv : PhiEnv :=
  { cexPhiEnv with
    valueScope := fun _ => some 7,
    peelAttempt := fun l =>
      if l = some 7 then
        some { iterations := [{ iterStatus := .statusUnknown,
                                replacement := fun v => (v, 1) }] }
      else none }

/-- Witness for C5: the exit PHI over lcssaPhiEnv is refused because the
child loop's only iteration is not Final. -/
theorem lcssa_exit_constraint_witness :
    getPHINodeValue lcssaPhiEnv none = none :=
  (((lcssa_exit_constraint lcssaPhiEnv 1 (by decide) rfl rfl).2.2.1
      { iterations := [{ iterStatus := .statusUnknown,
                         replacement := fun v => (v, 1) }] } rfl
      { iterStatus := .statusUnknown, replacement := fun v => (v, 1) } rfl).1
    (by intro h; cases h))

/-- C3.  Loop iteration identity: a header PHI of a peel iteration reads
exactly the previous iteration's latch-incoming replacement when the
ordinal is positive and the parent context's preheader-incoming
replacement in iteration 0; the generic predecessor scan is never used for
it (the PHI's result is insensitive to the predecessor data), and the
backward walker queues exactly the matching single predecessor from the
loop header. -/
theorem peel_header_phi_identity (env : PhiEnv) (ie : PeelIterationEnv)
    (hdr : ie.isHeaderPHI = true) :
    (0 < ie.iterationCount →
       getLoopHeaderPHIValue ie =
         some (ie.iterationReplacement (ie.iterationCount - 1) ie.latchIncoming))
  ∧ (ie.iterationCount = 0 →
       getLoopHeaderPHIValue ie = some (ie.parentReplacement ie.preheaderIncoming))
  ∧ (∀ (preds2 : List Nat) (edgeDead2 : Nat → Bool) (incoming2 : Nat → Nat),
       getPHINodeValue
         { env with preds := preds2, edgeDead := edgeDead2,
                    incomingValue := incoming2 }
         (getLoopHeaderPHIValue ie) =
       getPHINodeValue env (getLoopHeaderPHIValue ie))
  ∧ (∀ (header preheader latch : Nat) (normalPreds : List (Nat × BWCtx)),
       peelQueuePredecessorsBW ie.iterationCount header preheader latch header
           normalPreds =
         if ie.iterationCount = 0 then [(preheader, BWCtx.parentCtx)]
         else [(latch, BWCtx.iterCtx (ie.iterationCount - 1))]) := by
  refine ⟨?_, ?_, ?_, ?_⟩
  · intro hpos
    unfold getLoopHeaderPHIValue
    rw [if_pos hdr, if_neg (by omega)]
  · intro hzero
    unfold getLoopHeaderPHIValue
    rw [if_pos hdr, if_pos hzero]
  · intro preds2 edgeDead2 incoming2
    have hsome : ∃ r, getLoopHeaderPHIValue ie = some r := by
      unfold getLoopHeaderPHIValue
      rw [if_pos hdr]
      by_cases hz : ie.iterationCount = 0
      · exact ⟨_, by rw [if_pos hz]⟩
      · exact ⟨_, by rw [if_neg hz]⟩
    obtain ⟨r, hr⟩ := hsome
    rw [hr]
    rfl
  · intro header preheader latch normalPreds
    unfold peelQueuePredecessorsBW
    rw [if_pos rfl]

/-- The peel iteration for the C3 witness: iteration 2 of a loop, reading
latch value 6 from iteration 1. -/
def iterEnvEx : PeelIterationEnv :=
  { iterationCount := 2,
    parentReplacement := fun v => (v, 0),
    iterationReplacement := fun n v => (v + n, 1),
    preheaderIncoming := 4,
    latchIncoming := 6,
    isHeaderPHI := true }

/-- Witness for C3: the header PHI of iteration 2 reads the latch-incoming
value as computed by iteration 1. -/
theorem peel_header_phi_identity_witness :
    getLoopHeaderPHIValue iterEnvEx =
      some (iterEnvEx.iterationReplacement (iterEnvEx.iterationCount - 1)
        iterEnvEx.latchIncoming) :=
  (peel_header_phi_identity cexPhiEnv iterEnvEx rfl).1 (by decide)

/- ===================================================================
   The cross-context walkers (IAWalker::queueWalkFrom and the two-buffer
   breadth-first loop shared by BackwardIAWalker::walk and
   ForwardIAWalker::walk).  α is the type of BICs — (block iterator,
   block, context) cursors; walking one frontier entry either stops this
   path, aborts the whole walk (blockedByUnexpandedCall / WIRStopWholeWalk),
   or produces the cursors its queuePredecessorsBW / queueSuccessorsFW /
   call-entry logic offers to queueWalkFrom.
   =================================================================== -/

/-- What processing one frontier entry does, folding together the
WalkInstructionResult of walkFromInst and the cursors subsequently offered
to queueWalkFrom. -/
inductive NodeOutcome (α : Type) where
  | stopThisPath
  | stopWholeWalk
  | queueNext (succs : List α)

/-- The per-walk state: the Visited set and the two alternating buffers
PList (next frontier) and CList (current frontier). -/
structure WalkerState (α : Type) where
  visitedBICs : List α
  pList : List α
  cList : List α

/-- IAWalker::queueWalkFrom: push a cursor onto the next frontier only if
inserting it into Visited reports it new. -/
def queueWalkFrom [DecidableEq α] (s : WalkerState α) (bic : α) : WalkerState α :=
  if bic ∈ s.visitedBICs then s
  else { s with visitedBICs := bic :: s.visitedBICs, pList := s.pList ++ [bic] }

/-- The for-loop over CList inside walk: process each frontier entry in
order, stopping the whole walk on WIRStopWholeWalk (first component true),
and otherwise offering each produced cursor to queueWalkFrom.  The third
component accumulates the entries actually processed (the visit trace). -/
def processCList [DecidableEq α] (outcome : α → NodeOutcome α) :
    List α → WalkerState α → List α → Bool × WalkerState α × List α
  | [], s, trace => (false, s, trace)
  | bic :: rest, s, trace =>
    match outcome bic with
    | .stopThisPath => processCList outcome rest s (trace ++ [bic])
    | .stopWholeWalk => (true, s, trace ++ [bic])
    | .queueNext succs =>
      processCList outcome rest (succs.foldl queueWalkFrom s) (trace ++ [bic])

/-- The while-loop of BackwardIAWalker::walk / ForwardIAWalker::walk: while
either buffer is nonempty, run the frontier, clear CList and swap the
buffers.  Fuel-indexed; none means the fuel ran out before the walk
finished. -/
def walkLoop [DecidableEq α] (outcome : α → NodeOutcome α) :
    Nat → WalkerState α → List α → Option (WalkerState α × List α)
  | fuel, s, trace =>
    if s.pList.isEmpty && s.cList.isEmpty then some (s, trace)
    else
      match fuel with
      | 0 => none
      | fuel + 1 =>
        match processCList outcome s.cList { s with cList := [] } trace with
        | (true, s2, trace2) => some (s2, trace2)
        | (false, s2, trace2) =>
          walkLoop outcome fuel
            { visitedBICs := s2.visitedBICs, pList := [], cList := s2.pList } trace2

/-- The walker constructors: the start cursor is inserted into Visited and
pushed onto PList. -/
def initialWalkerState (start : α) : WalkerState α :=
  { visitedBICs := [start], pList := [start], cList := [] }

/-- The walk's termination measure: unvisited cursors count double, next
frontier entries double, current frontier entries once. -/
def walkerMeasure [Fintype α] (s : WalkerState α) : Nat :=
  2 * (Fintype.card α - s.visitedBICs.length) + 2 * s.pList.length + s.cList.length

theorem queueWalkFrom_spec [DecidableEq α] (s : WalkerState α) (a : α) (L : List α)
    (hv : s.visitedBICs.Nodup)
    (hn : (L ++ s.pList).Nodup)
    (hsub : ∀ x ∈ L ++ s.pList, x ∈ s.visitedBICs) :
    (queueWalkFrom s a).visitedBICs.Nodup ∧
    (L ++ (queueWalkFrom s a).pList).Nodup ∧
    (∀ x ∈ L ++ (queueWalkFrom s a).pList, x ∈ (queueWalkFrom s a).visitedBICs) ∧
    (queueWalkFrom s a).cList = s.cList ∧
    (queueWalkFrom s a).pList.length + s.visitedBICs.length =
      s.pList.length + (queueWalkFrom s a).visitedBICs.length ∧
    (∀ x ∈ s.visitedBICs, x ∈ (queueWalkFrom s a).visitedBICs) := by
  by_cases hmem : a ∈ s.visitedBICs
  · have hq : queueWalkFrom s a = s := by
      unfold queueWalkFrom
      rw [if_pos hmem]
    rw [hq]
    exact ⟨hv, hn, hsub, rfl, rfl, fun x hx => hx⟩
  · have hq1 : (queueWalkFrom s a).visitedBICs = a :: s.visitedBICs := by
      unfold queueWalkFrom
      rw [if_neg hmem]
    have hq2 : (queueWalkFrom s a).pList = s.pList ++ [a] := by
      unfold queueWalkFrom
      rw [if_neg hmem]
    have hq3 : (queueWalkFrom s a).cList = s.cList := by
      unfold queueWalkFrom
      rw [if_neg hmem]
    have hfresh : a ∉ L ++ s.pList := fun hx => hmem (hsub a hx)
    rw [hq1, hq2, hq3]
    refine ⟨List.nodup_cons.mpr ⟨hmem, hv⟩, ?_, ?_, rfl, by simp; omega, ?_⟩
    · rw [← List.append_assoc, List.nodup_append_comm]
      exact List.nodup_cons.mpr ⟨hfresh, hn⟩
    · intro x hx
      rw [← List.append_assoc] at hx
      rcases List.mem_append.mp hx with hx | hx
      · exact List.mem_cons_of_mem a (hsub x hx)
      · rw [List.mem_singleton.mp hx]
        exact List.mem_cons_self a _
    · intro x hx
      exact List.mem_cons_of_mem a hx

theorem foldl_queueWalkFrom_spec [DecidableEq α] :
    ∀ (succs : List α) (s : WalkerState α) (L : List α),
      s.visitedBICs.Nodup →
      (L ++ s.pList).Nodup →
      (∀ x ∈ L ++ s.pList, x ∈ s.visitedBICs) →
      (succs.foldl queueWalkFrom s).visitedBICs.Nodup ∧
      (L ++ (succs.foldl queueWalkFrom s).pList).Nodup ∧
      (∀ x ∈ L ++ (succs.foldl queueWalkFrom s).pList,
         x ∈ (succs.foldl queueWalkFrom s).visitedBICs) ∧
      (succs.foldl queueWalkFrom s).cList = s.cList ∧
      (succs.foldl queueWalkFrom s).pList.length + s.visitedBICs.length =
        s.pList.length + (succs.foldl queueWalkFrom s).visitedBICs.length ∧
      (∀ x ∈ s.visitedBICs, x ∈ (succs.foldl queueWalkFrom s).visitedBICs) := by
  intro succs
  induction succs with
  | nil =>
    intro s L hv hn hsub
    exact ⟨hv, hn, hsub, rfl, rfl, fun x hx => hx⟩
  | cons a rest ih =>
    intro s L hv hn hsub
    obtain ⟨qv, qn, qsub, qc, qlen, qmono⟩ := queueWalkFrom_spec s a L hv hn hsub
    obtain ⟨rv, rn, rsub, rc, rlen, rmono⟩ :=
      ih (queueWalkFrom s a) L qv qn qsub
    rw [List.foldl_cons]
    refine ⟨rv, rn, rsub, by rw [rc, qc], by omega, fun x hx => rmono x (qmono x hx)⟩

theorem processCList_spec [DecidableEq α] (outcome : α → NodeOutcome α) :
    ∀ (work : List α) (s : WalkerState α) (trace : List α),
      s.visitedBICs.Nodup →
      (trace ++ work ++ s.pList).Nodup →
      (∀ x ∈ trace ++ work ++ s.pList, x ∈ s.visitedBICs) →
      ∀ ab s2 trace2, processCList outcome work s trace = (ab, s2, trace2) →
        s2.visitedBICs.Nodup ∧
        (trace2 ++ s2.pList).Nodup ∧
        (∀ x ∈ trace2 ++ s2.pList, x ∈ s2.visitedBICs) ∧
        s2.cList = s.cList ∧
        s2.pList.length + s.visitedBICs.length =
          s.pList.length + s2.visitedBICs.length ∧
        (∀ x ∈ s.visitedBICs, x ∈ s2.visitedBICs) := by
  intro work
  induction work with
  | nil =>
    intro s trace hv hn hsub ab s2 trace2 heq
    cases heq
    refine ⟨hv, by simpa using hn, by simpa using hsub, rfl, rfl, fun x hx => hx⟩
  | cons bic rest ih =>
    intro s trace hv hn hsub ab s2 trace2 heq
    unfold processCList at heq
    cases houtcome : outcome bic with
    | stopThisPath =>
      rw [houtcome] at heq
      refine ih s (trace ++ [bic]) hv ?_ ?_ ab s2 trace2 heq
      · simpa using hn
      · intro x hx
        refine hsub x ?_
        simpa using hx
    | stopWholeWalk =>
      rw [houtcome] at heq
      cases heq
      have hsb : (trace ++ [bic] ++ s.pList).Sublist (trace ++ (bic :: rest) ++ s.pList) := by
        rw [List.append_assoc, List.append_assoc]
        refine List.Sublist.append_left ?_ trace
        show ([bic] ++ s.pList).Sublist ((bic :: rest) ++ s.pList)
        show (bic :: s.pList).Sublist (bic :: (rest ++ s.pList))
        exact List.Sublist.cons₂ bic (List.sublist_append_right rest s.pList)
      refine ⟨hv, hn.sublist hsb, ?_, rfl, rfl, fun x hx => hx⟩
      intro x hx
      exact hsub x (hsb.mem hx)
    | queueNext succs =>
      rw [houtcome] at heq
      have hn' : ((trace ++ [bic] ++ rest) ++ s.pList).Nodup := by simpa using hn
      have hsub' : ∀ x ∈ (trace ++ [bic] ++ rest) ++ s.pList, x ∈ s.visitedBICs := by
        intro x hx
        refine hsub x ?_
        simpa using hx
      obtain ⟨qv, qn, qsub, qc, qlen, qmono⟩ :=
        foldl_queueWalkFrom_spec succs s (trace ++ [bic] ++ rest) hv hn' hsub'
      obtain ⟨rv, rn, rsub, rc, rlen, rmono⟩ :=
        ih (succs.foldl queueWalkFrom s) (trace ++ [bic]) qv
          (by simpa using qn) (by intro x hx; refine qsub x ?_; simpa using hx)
          ab s2 trace2 heq
      exact ⟨rv, rn, rsub, by rw [rc, qc], by omega, fun x hx => rmono x (qmono x hx)⟩

theorem walkLoop_total [DecidableEq α] [Fintype α] (outcome : α → NodeOutcome α) :
    ∀ (fuel : Nat) (s : WalkerState α) (trace : List α),
      s.visitedBICs.Nodup →
      (trace ++ s.pList ++ s.cList).Nodup →
      (∀ x ∈ trace ++ s.pList ++ s.cList, x ∈ s.visitedBICs) →
      walkerMeasure s ≤ fuel →
      ∃ r, walkLoop outcome fuel s trace = some r ∧
        r.2.Nodup ∧ r.1.visitedBICs.Nodup := by
  intro fuel
  induction fuel with
  | zero =>
    intro s trace hv hn hsub hm
    unfold walkerMeasure at hm
    have hp : s.pList = [] := List.eq_nil_of_length_eq_zero (by omega)
    have hc : s.cList = [] := List.eq_nil_of_length_eq_zero (by omega)
    refine ⟨(s, trace), ?_, ?_, hv⟩
    · unfold walkLoop
      rw [hp, hc]
      rfl
    · rw [hp, hc] at hn
      simpa using hn
  | succ f ih =>
    intro s trace hv hn hsub hm
    by_cases hempty : (s.pList.isEmpty && s.cList.isEmpty) = true
    · obtain ⟨hp, hc⟩ : s.pList = [] ∧ s.cList = [] := by
        simp only [Bool.and_eq_true, List.isEmpty_iff] at hempty
        exact hempty
      refine ⟨(s, trace), ?_, ?_, hv⟩
      · unfold walkLoop
        rw [if_pos hempty]
      · rw [hp, hc] at hn
        simpa using hn
    · have hlen1 : 1 ≤ s.pList.length + s.cList.length := by
        rcases Nat.eq_zero_or_pos (s.pList.length + s.cList.length) with hz | hpos
        · exfalso
          apply hempty
          have hp : s.pList = [] := List.eq_nil_of_length_eq_zero (by omega)
          have hc : s.cList = [] := List.eq_nil_of_length_eq_zero (by omega)
          rw [hp, hc]
          rfl
        · exact hpos
      have hn0 : (trace ++ (s.cList ++ s.pList)).Nodup := by
        have hperm : List.Perm (trace ++ (s.pList ++ s.cList))
            (trace ++ (s.cList ++ s.pList)) :=
          List.Perm.append_left trace List.perm_append_comm
        exact hperm.nodup_iff.mp (by simpa [List.append_assoc] using hn)
      rcases hproc : processCList outcome s.cList { s with cList := [] } trace with
        ⟨ab, s2, trace2⟩
      obtain ⟨v2n, n2, sub2, c2eq, len2, mono2⟩ :=
        processCList_spec outcome s.cList { s with cList := [] } trace hv
          (by simpa [List.append_assoc] using hn0)
          (by
            intro x hx
            apply hsub x
            simp only [List.append_assoc, List.mem_append] at hx ⊢
            tauto)
          ab s2 trace2 hproc
      cases ab
      · -- the frontier ran to completion; recurse on the swapped buffers
        have hv2le : s2.visitedBICs.length ≤ Fintype.card α := v2n.length_le_card
        have hvle : s.visitedBICs.length ≤ s2.visitedBICs.length :=
          (List.subperm_of_subset hv fun x hx => mono2 x hx).length_le
        have hm2 : walkerMeasure
            { visitedBICs := s2.visitedBICs, pList := ([] : List α),
              cList := s2.pList } ≤ f := by
          unfold walkerMeasure at hm ⊢
          simp only [List.length_nil] at *
          omega
        obtain ⟨r, hr, hrn, hrv⟩ :=
          ih { visitedBICs := s2.visitedBICs, pList := [], cList := s2.pList } trace2
            v2n (by simpa using n2)
            (by
              intro x hx
              apply sub2 x
              simpa using hx)
            hm2
        refine ⟨r, ?_, hrn, hrv⟩
        unfold walkLoop
        rw [if_neg (by simp [hempty])]
        show (match processCList outcome s.cList { s with cList := [] } trace with
          | (true, s2, trace2) => some (s2, trace2)
          | (false, s2, trace2) =>
            walkLoop outcome f
              { visitedBICs := s2.visitedBICs, pList := [], cList := s2.pList } trace2) =
          some r
        rw [hproc]
        exact hr
      · -- the walk aborted whole (WIRStopWholeWalk): it still terminates
        refine ⟨(s2, trace2), ?_, (List.nodup_append.mp n2).1, v2n⟩
        unfold walkLoop
        rw [if_neg (by simp [hempty])]
        show (match processCList outcome s.cList { s with cList := [] } trace with
          | (true, s2, trace2) => some (s2, trace2)
          | (false, s2, trace2) =>
            walkLoop outcome f
              { visitedBICs := s2.visitedBICs, pList := [], cList := s2.pList } trace2) =
          some (s2, trace2)
        rw [hproc]

/-- C8.  Walker cycle-safety and termination: starting any walk from any
cursor, with fuel twice the number of possible (cursor, context) pairs,
the two-buffer breadth-first loop finishes (it never runs out of fuel,
whatever cyclic successor structure `outcome` encodes), the visit trace
contains each (cursor, context) pair at most once, and the Visited set
stays duplicate-free — queueWalkFrom's Visited check filters every
re-enqueue. -/
theorem walker_cycle_safety (α : Type) [DecidableEq α] [Fintype α]
    (outcome : α → NodeOutcome α) (start : α) (fuel : Nat)
    (hfuel : 2 * Fintype.card α ≤ fuel) :
    ∃ r, walkLoop outcome fuel (initialWalkerState start) [] = some r ∧
      r.2.Nodup ∧ r.1.visitedBICs.Nodup := by
  have hcard : 0 < Fintype.card α := Fintype.card_pos_iff.mpr ⟨start⟩
  refine walkLoop_total outcome fuel (initialWalkerState start) []
    (by simp [initialWalkerState]) (by simp [initialWalkerState])
    (by simp [initialWalkerState]) ?_
  unfold walkerMeasure initialWalkerState
  simp only [List.length_singleton, List.length_nil]
  omega

/-- A cyclic successor structure on three cursors: 0 → 1 → 2 → 0. -/
def cyclicOutcome : Fin 3 → NodeOutcome (Fin 3) :=
  fun a => .queueNext [a + 1]

/-- Witness for C8: the walk over the three-cursor cycle finishes within
fuel 6 with a duplicate-free trace — the Visited set stops the third
step from re-enqueueing cursor 0. -/
theorem walker_cycle_safety_witness :
    ∃ r, walkLoop cyclicOutcome 6 (initialWalkerState (0 : Fin 3)) [] = some r ∧
      r.2.Nodup ∧ r.1.visitedBICs.Nodup :=
  walker_cycle_safety (Fin 3) cyclicOutcome 0 6 (by decide)
